import Mathlib

/-!
Verification of the Algorithm Visualizer's trace-generation and playback core.

The development shallowly embeds three parts of the repository:
* the Fibonacci runner (`fibonacciRunner` in `src/algorithms/runners/dynamic.ts`),
* the N-Queens runner (`nQueensRunner` in `src/algorithms/runners/backtracking.ts`),
* the playback controller (`useVisualization` in `src/hooks/useVisualization.ts`).

Modelling conventions:
* JS numbers are modelled as `Int` (BigInt values likewise).  Every numeric value a claim
  inspects stays within the double-precision exact-integer range in the source
  (`useBigInt` switches the dp path to BigInt above n = 78, and Fibonacci(78) is still an
  exact double), so the `Int` model agrees with the JS semantics on everything the
  theorems talk about.
* step `description` strings and the `codeLine` numbers are presentation-only and are not
  inspected by any claim; step payload fields that a claim can observe are kept.
* `x || y` on a JS number is falsy exactly at 0, which is modelled explicitly where it
  matters (`detailLevel || 50`, `maxSolutions || 1`).
-/

namespace AlgoViz

/-! ### Step records emitted by the Fibonacci runner -/

inductive FibStep where
  | init (n : Int) (mode strategy : String)
  | baseCase (n result : Int)
  | computeStart (n : Int)
  | initDp (dp : List Int) (n : Int)
  | compute (i prev1 prev2 : Int)
  | store (i value : Int)
  | complete (n result : Int)
  deriving DecidableEq, Repr

/-- The `kind` string carried by each step record. -/
def FibStep.kind : FibStep → String
  | .init .. => "init"
  | .baseCase .. => "base-case"
  | .computeStart .. => "compute-start"
  | .initDp .. => "init-dp"
  | .compute .. => "compute"
  | .store .. => "store"
  | .complete .. => "complete"

/-- The `result` payload field, on the steps that carry one. -/
def FibStep.result? : FibStep → Option Int
  | .baseCase _ r => some r
  | .complete _ r => some r
  | _ => none

/-! ### NumericStrategy: the three Fibonacci computations -/

/-- `fibHelper` from `fastDoubling`: returns the pair `[F(k), F(k+1)]`, recursing on
`Math.floor(k / 2)`. -/
def fibHelper : Nat → Int × Int
  | 0 => (0, 1)
  | 1 => (1, 1)
  | k + 2 =>
    let p := fibHelper ((k + 2) / 2)
    let a := p.1
    let b := p.2
    let c := a * (2 * b - a)
    let d := b * b + a * a
    if (k + 2) % 2 = 0 then (c, d) else (d, c + d)
termination_by k => k
decreasing_by simp_wf; omega

/-- `fastDoubling(n)` from the source.  The source short-circuits 0 and 1 and otherwise
calls `fibHelper(n)`; it is only reached with n ≥ 2, so `Int.toNat` is faithful. -/
def fastDoubling (n : Int) : Int :=
  if n = 0 then 0
  else if n = 1 then 1
  else (fibHelper n.toNat).1

/-- The loop body of `iterativeFib`: `temp = a + b; a = b; b = temp`, run `m` times. -/
def iterFibLoop : Nat → Int → Int → Int
  | 0, _, b => b
  | m + 1, a, b => iterFibLoop m b (a + b)

/-- `iterativeFib(n)` from the source: `if (n <= 1) return BigInt(n)`, then the loop runs
for `i = 2 .. n`, i.e. `n - 1` times, from `a = 0, b = 1`. -/
def iterativeFib (n : Int) : Int :=
  if n ≤ 1 then n else iterFibLoop (n - 1).toNat 0 1

/-! ### fibonacciRunner -/

structure FibInput where
  n : Int
  strategy : Option String := none
  detailLevel : Option Int := none
  mode : Option String := none
  deriving DecidableEq, Repr

structure ValidationResult where
  valid : Bool
  error : Option String := none
  deriving DecidableEq, Repr

def MAX_DP_ARRAY_SIZE : Int := 10000

/-- `input.detailLevel || 50`: a JS `0` is falsy, so detail level 0 falls back to 50. -/
def effDetailLevel : Option Int → Int
  | none => 50
  | some d => if d = 0 then 50 else d

/-- Mode derivation when the caller supplied no mode (`if (!mode)` also treats the empty
string as absent). -/
def fibDerivedMode (n : Int) : String :=
  if n ≤ 50 then "full" else if n ≤ MAX_DP_ARRAY_SIZE then "condensed" else "computation-only"

def fibMode (n : Int) : Option String → String
  | none => fibDerivedMode n
  | some m => if m = "" then fibDerivedMode n else m

/-- Iterative-path sample stride:
`mode === 'condensed' ? Math.max(1, Math.floor(n / (100 - detailLevel))) : 1`.
At `detailLevel = 100` the JS quotient is `Infinity` (and `i % Infinity === i`), which we
represent as `none`.  For `detailLevel > 100` the JS quotient is negative, so the `max`
yields 1 under both the JS floor and the Lean `Int` division. -/
def iterSampleRate (n : Int) (mode : String) (detailLevel : Int) : Option Int :=
  if mode = "condensed" then
    if detailLevel = 100 then none
    else some (max 1 (n / (100 - detailLevel)))
  else some 1

/-- `i % sampleRate === 0 || i === n || i <= 10` (with `i % Infinity === i` when the
stride is `none`). -/
def iterShouldSample (sr : Option Int) (n i : Int) : Bool :=
  (match sr with
   | none => i == 0
   | some r => i % r == 0) || i == n || decide (i ≤ 10)

/-- The iterative-path loop `for (i = 2; i <= n; i++)`, carrying `(a, b)` and emitting a
`compute` step (payload `prev1 = b, prev2 = a`) and a `store` step (the new `b`) at every
sampled index.  Returns the final `(a, b)` and the emitted steps. -/
def iterSteps (sr : Option Int) (n : Int) : Nat → Int → Int → Int → Int × Int × List FibStep
  | 0, _, a, b => (a, b, [])
  | fuel + 1, i, a, b =>
    let s := iterShouldSample sr n i
    let pre : List FibStep := if s then [.compute i b a] else []
    let b' := a + b
    let a' := b
    let post : List FibStep := if s then [.store i b'] else []
    let rest := iterSteps sr n fuel (i + 1) a' b'
    (rest.1, rest.2.1, pre ++ post ++ rest.2.2)

/-- A JS array write `l[i] = v`: in range it overwrites; at or past the end the array
grows (the only out-of-range write the runner performs is at exactly `i = length`, so the
padding value is never observable). -/
def jsArraySet (l : List Int) (i : Nat) (v : Int) : List Int :=
  if i < l.length then l.set i v
  else l ++ List.replicate (i - l.length) 0 ++ [v]

/-- dp-path sample stride:
`Math.max(1, Math.floor(n / Math.max(1, (100 - detailLevel) * 10)))` in condensed mode. -/
def dpSampleRate (n : Int) (mode : String) (detailLevel : Int) : Int :=
  if mode = "condensed" then max 1 (n / max 1 ((100 - detailLevel) * 10)) else 1

/-- `mode === 'full' || i % sampleRate === 0 || i === n || i <= 10`. -/
def dpShouldSample (mode : String) (sr n i : Int) : Bool :=
  mode == "full" || i % sr == 0 || i == n || decide (i ≤ 10)

/-- The dp-path loop `for (i = 2; i <= n && i <= MAX_DP_ARRAY_SIZE; i++)`: reads
`dp[i-1]`, `dp[i-2]`, writes `dp[i]`, and emits `compute`/`store` steps at sampled
indices.  Returns the final dp array and the emitted steps. -/
def dpSteps (mode : String) (sr n : Int) : Nat → Int → List Int → List Int × List FibStep
  | 0, _, dp => (dp, [])
  | fuel + 1, i, dp =>
    let s := dpShouldSample mode sr n i
    let prev1 := dp.getD (i - 1).toNat 0
    let prev2 := dp.getD (i - 2).toNat 0
    let pre : List FibStep := if s then [.compute i prev1 prev2] else []
    let dp' := jsArraySet dp i.toNat (prev1 + prev2)
    let post : List FibStep := if s then [.store i (prev1 + prev2)] else []
    let rest := dpSteps mode sr n fuel (i + 1) dp'
    (rest.1, pre ++ post ++ rest.2)

/-- The dp table as first initialised:
`new Array(Math.min(n + 1, MAX_DP_ARRAY_SIZE)).fill(0)` followed by `dp[0] = 0; dp[1] = 1`. -/
def dpInit (n : Int) : List Int :=
  jsArraySet (jsArraySet (List.replicate (min (n + 1) MAX_DP_ARRAY_SIZE).toNat 0) 0 0) 1 1

namespace fibonacciRunner

/-- `fibonacciRunner.generateSteps` from the source, branch for branch. -/
def generateSteps (input : FibInput) : List FibStep :=
  let n := input.n
  let strategy := input.strategy.getD "dp-array"
  let detailLevel := effDetailLevel input.detailLevel
  let mode := fibMode n input.mode
  let initStep : FibStep := .init n mode strategy
  if n ≤ 1 then
    [initStep, .baseCase n n, .complete n n]
  else if mode = "computation-only" ∨ n > MAX_DP_ARRAY_SIZE then
    [initStep, .computeStart n, .complete n (fastDoubling n)]
  else if strategy = "iterative" then
    let sr := iterSampleRate n mode detailLevel
    let r := iterSteps sr n (n - 1).toNat 2 0 1
    [initStep, .initDp [0, 1] n] ++ r.2.2 ++ [.complete n r.2.1]
  else
    let dp0 := dpInit n
    let sr := dpSampleRate n mode detailLevel
    let r := dpSteps mode sr n (min n MAX_DP_ARRAY_SIZE - 1).toNat 2 dp0
    let finalStep : FibStep :=
      if n > MAX_DP_ARRAY_SIZE then .complete n (fastDoubling n)
      else .complete n (r.1.getD n.toNat 0)
    [initStep, .initDp dp0 n] ++ r.2 ++ [finalStep]

/-- `fibonacciRunner.validateInput`.  Inputs are modelled with integer `n`, which makes
the `Number.isInteger` guard vacuous. -/
def validateInput (input : FibInput) : ValidationResult :=
  if input.n < 0 then ⟨false, some "N must be a non-negative integer"⟩
  else if input.n > 1000000 then ⟨false, some "N must be less than 1,000,000 for safety"⟩
  else
    match input.detailLevel with
    | some d =>
      if d < 0 ∨ d > 100 then ⟨false, some "Detail level must be between 0 and 100"⟩
      else ⟨true, none⟩
    | none => ⟨true, none⟩

end fibonacciRunner

/-- The value the dp-array path stores at index `n`: the base cases store `n` itself, and
for n ≥ 2 the dp loop (whose table evolution does not depend on the sampling parameters)
leaves `F(n)` at index `n`. -/
def fibTabulated (n : Int) : Int :=
  if n ≤ 1 then n
  else ((dpSteps "full" 1 n (min n MAX_DP_ARRAY_SIZE - 1).toNat 2 (dpInit n)).1).getD n.toNat 0

/-! ### Step records emitted by the N-Queens runner -/

inductive NQStep where
  | init (n : Nat) (board : List Int) (mode : String) (maxSolutions : Int) (useBitmask : Bool)
  | solutionFound (board : List Int) (n : Nat) (solutionNumber : Nat)
  | stepLimit (n : Nat) (solutionsFound : Nat)
  | tryRow (row : Nat) (board : List Int) (n : Nat)
  | tryCol (row col : Nat) (board : List Int) (n : Nat)
  | checkSafe (row col : Nat) (safe : Bool) (board : List Int) (n : Nat)
  | placeQueen (row col : Nat) (board : List Int) (n : Nat)
  | backtrack (row col : Nat) (board : List Int) (n : Nat)
  | noSolution (n : Nat)
  | complete (board : List Int) (n : Nat) (solutionFound : Bool) (solutionsCount : Nat)
      (allSolutions : List (List Int))
  deriving DecidableEq, Repr

/-- The `kind` string carried by each step record. -/
def NQStep.kind : NQStep → String
  | .init .. => "init"
  | .solutionFound .. => "solution-found"
  | .stepLimit .. => "step-limit"
  | .tryRow .. => "try-row"
  | .tryCol .. => "try-col"
  | .checkSafe .. => "check-safe"
  | .placeQueen .. => "place-queen"
  | .backtrack .. => "backtrack"
  | .noSolution .. => "no-solution"
  | .complete .. => "complete"

/-- Every board snapshot a step carries in its payload (`allSolutions` of the `complete`
step included). -/
def NQStep.boards : NQStep → List (List Int)
  | .init _ b .. => [b]
  | .solutionFound b .. => [b]
  | .stepLimit .. => []
  | .tryRow _ b _ => [b]
  | .tryCol _ _ b _ => [b]
  | .checkSafe _ _ _ b _ => [b]
  | .placeQueen _ _ b _ => [b]
  | .backtrack _ _ b _ => [b]
  | .noSolution _ => []
  | .complete b _ _ _ sols => b :: sols

/-- `MAX_N` from the source: the hard board-size safety cap. -/
def MAX_N : Int := 20

/-- A JS 32-bit shift `1 << x`: the shift count is taken mod 32, which matters because
the diagonal indices reach up to 39 for boards near the cap. -/
def jsBit (x : Nat) : Nat := 1 <<< (x % 32)

/-- `isSafeBitmask(row, col, cols, diag1, diag2)`; the `"/"` diagonal index is
`row - col + MAX_N`, written with the offset first so it stays inside `Nat`. -/
def isSafeBitmask (row col : Nat) (cols diag1 diag2 : Nat) : Bool :=
  cols &&& jsBit col == 0 &&
  diag1 &&& jsBit (row + 20 - col) == 0 &&
  diag2 &&& jsBit (row + col) == 0

/-- `isSafeTraditional(row, col, board)`: scan rows `0 .. row-1`; a placed queen at
column `c = board[i]` attacks if `c === col` or `|c - col| === |i - row|`. -/
def isSafeTraditional (row col : Nat) (board : List Int) : Bool :=
  (List.range row).all fun i =>
    let c := board.getD i 0
    !(c == (col : Int)) && !((c - (col : Int)).natAbs == row - i)

/-- The mutable context shared by the recursive solver: the board, the accumulated step
list, the solutions found so far, and the step counter.  `steps` holds the pushed steps
in reverse push order (an accumulator); `generateSteps` reverses it once at the end, so
`steps.push(x)` becomes `x :: steps`. -/
structure NQState where
  board : List Int
  steps : List NQStep
  solutions : List (List Int)
  stepCount : Int
  deriving DecidableEq, Repr

structure NQInput where
  n : Int
  maxSolutions : Option Int := none
  mode : Option String := none
  useBitmask : Option Bool := none
  deriving DecidableEq, Repr

/-- `input.maxSolutions || 1`: absent or `0` (JS falsy) defaults to 1. -/
def effMaxSolutions : Option Int → Int
  | none => 1
  | some v => if v = 0 then 1 else v

/-- Row-level sampling gate shared by both solver variants:
`mode === 'full' || (mode === 'sampling' && (row % samplingInterval === 0 || row === 0 || row === n - 1))`. -/
def nqShouldSample (mode : String) (interval n row : Nat) : Bool :=
  mode == "full" || (mode == "sampling" && (row % interval == 0 || row == 0 || row == n - 1))

/-- Column-level gate of the traditional solver:
`mode === 'full' || col % Math.max(1, Math.floor(n / 4)) === 0 || col === 0 || col === n - 1`. -/
def nqShouldCheck (mode : String) (n col : Nat) : Bool :=
  mode == "full" || col % (max 1 (n / 4)) == 0 || col == 0 || col == n - 1

/-- `if (cond) steps.push(s)`: conditionally record a step (onto the reversed
accumulator). -/
def pushIf (c : Bool) (s : NQStep) (st : NQState) : NQState :=
  if c then { st with steps := s :: st.steps } else st

/-- The column loop of `solveTraditional`; `recur` is the recursive call
`solveTraditional(row + 1)` on the board as mutated so far.  Returns the state and the
boolean the JS function returns (`true` stops the search). -/
def solveTradCols (n : Nat) (mode : String) (row : Nat) (shouldSample : Bool)
    (recur : NQState → NQState × Bool) : List Nat → NQState → NQState × Bool
  | [], st => (st, false)
  | col :: rest, st =>
    let shouldCheck := nqShouldCheck mode n col
    let st := pushIf (shouldCheck && shouldSample) (.tryCol row col st.board n) st
    let safe := isSafeTraditional row col st.board
    let st := pushIf (shouldCheck && shouldSample) (.checkSafe row col safe st.board n) st
    if safe then
      let st := { st with board := jsArraySet st.board row (col : Int) }
      let st := pushIf shouldSample (.placeQueen row col st.board n) st
      let r := recur st
      if r.2 then (r.1, true)
      else
        let st := { r.1 with board := jsArraySet r.1.board row (-1) }
        let st := pushIf shouldSample (.backtrack row col st.board n) st
        solveTradCols n mode row shouldSample recur rest st
    else
      solveTradCols n mode row shouldSample recur rest st

/-- `solveTraditional(row)`.  The recursion depth is bounded by the remaining rows, so a
fuel argument (always called with at least `n - row + 1`) makes it structural; the
fuel-exhausted branch is unreachable at every call site used below. -/
def solveTrad (n : Nat) (mode : String) (interval : Nat) (maxSol maxSteps : Int) :
    Nat → Nat → NQState → NQState × Bool
  | 0, _, st => (st, false)
  | fuel + 1, row, st =>
    if row == n then
      let sols := st.solutions ++ [st.board]
      let st := { st with solutions := sols,
                          steps := .solutionFound st.board n sols.length :: st.steps }
      (st, decide ((sols.length : Int) ≥ maxSol))
    else
      let old := st.stepCount
      let st := { st with stepCount := old + 1 }
      if old > maxSteps then
        ({ st with steps := .stepLimit n st.solutions.length :: st.steps }, true)
      else
        let shouldSample := nqShouldSample mode interval n row
        let st := pushIf shouldSample (.tryRow row st.board n) st
        solveTradCols n mode row shouldSample
          (solveTrad n mode interval maxSol maxSteps fuel (row + 1)) (List.range n) st

/-- The column loop of `solveBitmask`; `recur` receives the updated masks. -/
def solveBitCols (n : Nat) (row : Nat) (cols diag1 diag2 : Nat) (shouldSample : Bool)
    (recur : Nat → Nat → Nat → NQState → NQState × Bool) : List Nat → NQState → NQState × Bool
  | [], st => (st, false)
  | col :: rest, st =>
    if isSafeBitmask row col cols diag1 diag2 then
      let st := { st with board := jsArraySet st.board row (col : Int) }
      let st := pushIf shouldSample (.placeQueen row col st.board n) st
      let newCols := cols ||| jsBit col
      let newDiag1 := diag1 ||| jsBit (row + 20 - col)
      let newDiag2 := diag2 ||| jsBit (row + col)
      let r := recur newCols newDiag1 newDiag2 st
      if r.2 then (r.1, true)
      else
        let st := { r.1 with board := jsArraySet r.1.board row (-1) }
        let st := pushIf shouldSample (.backtrack row col st.board n) st
        solveBitCols n row cols diag1 diag2 shouldSample recur rest st
    else
      solveBitCols n row cols diag1 diag2 shouldSample recur rest st

/-- `solveBitmask(row, cols, diag1, diag2)`, with the same fuel convention as
`solveTrad`. -/
def solveBit (n : Nat) (mode : String) (interval : Nat) (maxSol maxSteps : Int) :
    Nat → Nat → Nat → Nat → Nat → NQState → NQState × Bool
  | 0, _, _, _, _, st => (st, false)
  | fuel + 1, row, cols, diag1, diag2, st =>
    if row == n then
      let sols := st.solutions ++ [st.board]
      let st := { st with solutions := sols,
                          steps := .solutionFound st.board n sols.length :: st.steps }
      (st, decide ((sols.length : Int) ≥ maxSol))
    else
      let old := st.stepCount
      let st := { st with stepCount := old + 1 }
      if old > maxSteps then
        ({ st with steps := .stepLimit n st.solutions.length :: st.steps }, true)
      else
        let shouldSample := nqShouldSample mode interval n row
        let st := pushIf shouldSample (.tryRow row st.board n) st
        solveBitCols n row cols diag1 diag2 shouldSample
          (fun c d1 d2 => solveBit n mode interval maxSol maxSteps fuel (row + 1) c d1 d2)
          (List.range n) st

/-- The final trace assembly of `nQueensRunner.generateSteps`: reverse the accumulated
steps, append the `no-solution` step when no solution was found, then the terminal
`complete` step (whose board is `solutions[0]` when one exists). -/
def nqAssemble (n : Nat) (board : List Int) (st1 : NQState) : List NQStep :=
  (if st1.solutions.length == 0 then st1.steps.reverse ++ [.noSolution n]
   else st1.steps.reverse) ++
  [.complete (if st1.solutions.length > 0 then st1.solutions.headD board else st1.board) n
    (st1.solutions.length > 0) st1.solutions.length st1.solutions]

namespace nQueensRunner

/-- `nQueensRunner.generateSteps`.  Claims about this runner assume `0 ≤ input.n` (a
negative `n` makes the JS `Array(n)` constructor throw), so `Int.toNat` after the
`Math.min(input.n, MAX_N)` clamp is faithful. -/
def generateSteps (input : NQInput) : List NQStep :=
  let n : Nat := (min input.n MAX_N).toNat
  let maxSolutions := effMaxSolutions input.maxSolutions
  let useBitmask := input.useBitmask.getD (decide (n > 12))
  let mode := (input.mode).getD
    (if n ≤ 12 then "full" else if n ≤ 16 then "sampling" else "fast-solve")
  let board : List Int := List.replicate n (-1)
  let MAX_STEPS : Int := if mode == "full" then 100000 else if mode == "sampling" then 50000 else 10000
  let samplingInterval : Nat := if mode == "sampling" then max 1 (n / 4) else 1
  let st0 : NQState := ⟨board, [.init n board mode maxSolutions useBitmask], [], 0⟩
  let st1 :=
    if useBitmask && mode != "full" then
      (solveBit n mode samplingInterval maxSolutions MAX_STEPS (n + 1) 0 0 0 0 st0).1
    else
      (solveTrad n mode samplingInterval maxSolutions MAX_STEPS (n + 1) 0 st0).1
  nqAssemble n board st1

/-- `nQueensRunner.validateInput`; `!input.n` is JS-falsy at 0, subsumed by `n < 1`
for integer inputs. -/
def validateInput (input : NQInput) : ValidationResult :=
  if input.n = 0 ∨ input.n < 1 then ⟨false, some "N must be a positive integer"⟩
  else if input.n > MAX_N then ⟨false, some "N must be at most 20 for safety"⟩
  else
    match input.maxSolutions with
    | some m =>
      if m < 1 ∨ m > 100 then ⟨false, some "Max solutions must be between 1 and 100"⟩
      else ⟨true, none⟩
    | none => ⟨true, none⟩

end nQueensRunner

/-- The number of `solution-found` steps in a trace. -/
def nqSolutionSteps (trace : List NQStep) : Nat :=
  trace.countP fun s => s.kind == "solution-found"

/-- Whether a trace contains a step of the given kind. -/
def nqHasKind (trace : List NQStep) (k : String) : Bool :=
  trace.any fun s => s.kind == k

/-! ### Playback controller (`useVisualization`)

The hook is generic in the step type, so the model is parametric in `α`.  The timer is a
side effect (`setTimeout`/`clearTimeout`) that never touches the cursor; the state the
claims observe is `VisualizationState`. -/

inductive PlaybackSpeed where
  | slow
  | medium
  | fast
  deriving DecidableEq, Repr

def SPEED_MAP : PlaybackSpeed → Int
  | .slow => 1500
  | .medium => 800
  | .fast => 300

structure AlgorithmResult where
  success : Bool
  message : String
  timeComplexity : String
  spaceComplexity : String
  iterations : Int
  deriving DecidableEq, Repr

structure VisualizationState (α : Type) where
  isPlaying : Bool
  isPaused : Bool
  currentStep : Int
  totalSteps : Int
  speed : PlaybackSpeed
  steps : List α
  result : Option AlgorithmResult
  deriving DecidableEq, Repr

def initialState : VisualizationState α :=
  ⟨false, false, 0, 0, .medium, [], none⟩

namespace useVisualization

/-- `setSteps`: stores the trace, updates `totalSteps`, resets the cursor, clears the
result — and spreads everything else (the play/pause flags included) unchanged. -/
def setSteps (st : VisualizationState α) (steps : List α) : VisualizationState α :=
  { st with steps := steps, totalSteps := steps.length, currentStep := 0, result := none }

/-- `goToStep`: `Math.max(0, Math.min(stepIndex, prev.totalSteps - 1))`. -/
def goToStep (st : VisualizationState α) (stepIndex : Int) : VisualizationState α :=
  { st with currentStep := max 0 (min stepIndex (st.totalSteps - 1)) }

/-- `nextStep`: at or past the last step it only stops playback; otherwise it advances. -/
def nextStep (st : VisualizationState α) : VisualizationState α :=
  if st.currentStep ≥ st.totalSteps - 1 then { st with isPlaying := false }
  else { st with currentStep := st.currentStep + 1 }

/-- `prevStep`: `Math.max(0, prev.currentStep - 1)`. -/
def prevStep (st : VisualizationState α) : VisualizationState α :=
  { st with currentStep := max 0 (st.currentStep - 1) }

def play (st : VisualizationState α) : VisualizationState α :=
  { st with isPlaying := true, isPaused := false }

def pause (st : VisualizationState α) : VisualizationState α :=
  { st with isPlaying := false, isPaused := true }

def reset (st : VisualizationState α) : VisualizationState α :=
  { st with isPlaying := false, isPaused := false, currentStep := 0, result := none }

def setSpeed (st : VisualizationState α) (s : PlaybackSpeed) : VisualizationState α :=
  { st with speed := s }

def setResult (st : VisualizationState α) (r : AlgorithmResult) : VisualizationState α :=
  { st with result := some r }

end useVisualization

/-- The playback operations a caller can issue. -/
inductive PlaybackOp (α : Type) where
  | setSteps (steps : List α)
  | goToStep (stepIndex : Int)
  | nextStep
  | prevStep
  | play
  | pause
  | reset
  | setSpeed (s : PlaybackSpeed)
  | setResult (r : AlgorithmResult)
  deriving Repr

def applyOp (st : VisualizationState α) : PlaybackOp α → VisualizationState α
  | .setSteps l => useVisualization.setSteps st l
  | .goToStep i => useVisualization.goToStep st i
  | .nextStep => useVisualization.nextStep st
  | .prevStep => useVisualization.prevStep st
  | .play => useVisualization.play st
  | .pause => useVisualization.pause st
  | .reset => useVisualization.reset st
  | .setSpeed s => useVisualization.setSpeed st s
  | .setResult r => useVisualization.setResult st r

def applyOps (ops : List (PlaybackOp α)) (st : VisualizationState α) : VisualizationState α :=
  ops.foldl applyOp st

/-- The cursor invariant: `totalSteps` tracks the stored trace, and the cursor is in
range (or pinned at 0 for an empty trace). -/
def cursorInv (st : VisualizationState α) : Prop :=
  st.totalSteps = st.steps.length ∧ 0 ≤ st.currentStep ∧
    (st.currentStep < st.totalSteps ∨ (st.totalSteps = 0 ∧ st.currentStep = 0))

/-- The step kinds a trace may legally end with. -/
def terminalKinds : List String := ["complete", "no-solution", "step-limit"]

/-- The number of `compute` and `store` steps in a Fibonacci trace. -/
def fibComputeStoreCount (trace : List FibStep) : Nat :=
  trace.countP fun s => s.kind == "compute" || s.kind == "store"

/-- The basic solver invariant: the working board, every solution and every recorded
board snapshot has length `n`, and the number of recorded `solution-found` steps equals
the number of solutions. -/
def nqBasicInv (n : Nat) (st : NQState) : Prop :=
  st.board.length = n ∧
  (∀ b ∈ st.solutions, b.length = n) ∧
  (∀ s ∈ st.steps, ∀ b ∈ s.boards, b.length = n) ∧
  (st.steps.countP fun s => s.kind == "solution-found") = st.solutions.length

/-- What a solver call guarantees about its result: the basic invariant is preserved,
and if the call starts strictly below `maxSol` solutions it ends with at most `maxSol`
of them — strictly below whenever it returns `false` (search not stopped). -/
def nqContract (n : Nat) (maxSol : Int) (st : NQState) (res : NQState × Bool) : Prop :=
  nqBasicInv n res.1 ∧
    ((st.solutions.length : Int) < maxSol →
      ((res.1.solutions.length : Int) ≤ maxSol ∧
        (res.2 = false → (res.1.solutions.length : Int) < maxSol)))

/-! ## Theorems -/

/-- Appending a final element determines `getLast?`. -/
theorem getLast?_append_singleton (xs : List β) (x : β) : (xs ++ [x]).getLast? = some x := by
  rw [List.getLast?_append_cons]; rfl

set_option maxRecDepth 20000

/-- C8: `validateInput` rejects the Fibonacci inputs n = -1, n = 2000000 and
detailLevel = 150, and the N-Queens inputs N = 21, maxSolutions = 0 and
maxSolutions = 101. -/
theorem validateInput_rejects_out_of_range :
    (fibonacciRunner.validateInput ⟨-1, none, none, none⟩).valid = false ∧
    (fibonacciRunner.validateInput ⟨2000000, none, none, none⟩).valid = false ∧
    (fibonacciRunner.validateInput ⟨20, none, some 150, none⟩).valid = false ∧
    (nQueensRunner.validateInput ⟨21, some 10, none, none⟩).valid = false ∧
    (nQueensRunner.validateInput ⟨8, some 0, none, none⟩).valid = false ∧
    (nQueensRunner.validateInput ⟨8, some 101, none, none⟩).valid = false := by
  decide

/-- C4, counterexample: the n = 0 Fibonacci trace has 3 steps (an `init` step precedes
`base-case` and `complete`), not 2 as claimed. -/
theorem fib_base_case_two_steps_cex :
    (fibonacciRunner.generateSteps ⟨0, none, none, none⟩).length ≠ 2 := by
  decide

/-- C4, amended: for n ≤ 1 the Fibonacci trace is exactly `init`, `base-case`,
`complete` (3 steps), with both the base-case and the complete step carrying result `n`
(so 0 for n = 0 and 1 for n = 1). -/
theorem fib_base_case_trace (input : FibInput) (h : input.n ≤ 1) :
    fibonacciRunner.generateSteps input =
      [FibStep.init input.n (fibMode input.n input.mode) (input.strategy.getD "dp-array"),
       FibStep.baseCase input.n input.n, FibStep.complete input.n input.n] ∧
    (fibonacciRunner.generateSteps input).length = 3 := by
  constructor <;> simp [fibonacciRunner.generateSteps, h]

/-- Witness for `fib_base_case_trace` at n = 0 and n = 1. -/
theorem fib_base_case_trace_witness :
    fibonacciRunner.generateSteps ⟨0, none, none, none⟩ =
      [FibStep.init 0 "full" "dp-array", FibStep.baseCase 0 0, FibStep.complete 0 0] ∧
    fibonacciRunner.generateSteps ⟨1, none, none, none⟩ =
      [FibStep.init 1 "full" "dp-array", FibStep.baseCase 1 1, FibStep.complete 1 1] :=
  ⟨((fib_base_case_trace ⟨0, none, none, none⟩ (by decide)).1).trans (by decide),
   ((fib_base_case_trace ⟨1, none, none, none⟩ (by decide)).1).trans (by decide)⟩

/-- C5, counterexample: loading a trace while the controller is playing does not
transition it to idle — `setSteps` spreads the previous `isPlaying` flag, so it is still
`true` after the load. -/
theorem setSteps_keeps_playing_cex :
    ¬ ((useVisualization.setSteps
          (useVisualization.play (initialState : VisualizationState Nat)) [0]).isPlaying
        = false) := by
  decide

/-- C5, amended: `setSteps` replaces the trace, updates `totalSteps`, resets the cursor
to 0 and clears the stored result, but leaves `isPlaying` and `isPaused` exactly as they
were — it does not transition the controller to idle. -/
theorem setSteps_spec (st : VisualizationState α) (tr : List α) :
    (useVisualization.setSteps st tr).steps = tr ∧
    (useVisualization.setSteps st tr).totalSteps = tr.length ∧
    (useVisualization.setSteps st tr).currentStep = 0 ∧
    (useVisualization.setSteps st tr).result = none ∧
    (useVisualization.setSteps st tr).isPlaying = st.isPlaying ∧
    (useVisualization.setSteps st tr).isPaused = st.isPaused := by
  simp [useVisualization.setSteps]

/-- Each playback operation preserves the cursor invariant. -/
theorem applyOp_cursorInv (st : VisualizationState α) (op : PlaybackOp α)
    (h : cursorInv st) : cursorInv (applyOp st op) := by
  obtain ⟨h1, h2, h3⟩ := h
  cases op with
  | setSteps l =>
    refine ⟨rfl, le_refl 0, ?_⟩
    show 0 < (l.length : Int) ∨ ((l.length : Int) = 0 ∧ (0 : Int) = 0)
    omega
  | goToStep i =>
    refine ⟨h1, ?_, ?_⟩
    · show 0 ≤ max 0 (min i (st.totalSteps - 1))
      omega
    · show max 0 (min i (st.totalSteps - 1)) < st.totalSteps ∨
        (st.totalSteps = 0 ∧ max 0 (min i (st.totalSteps - 1)) = 0)
      omega
  | nextStep =>
    show cursorInv (if st.currentStep ≥ st.totalSteps - 1
      then { st with isPlaying := false } else { st with currentStep := st.currentStep + 1 })
    split
    · exact ⟨h1, h2, h3⟩
    · next hc =>
      refine ⟨h1, ?_, ?_⟩
      · show (0 : Int) ≤ st.currentStep + 1
        omega
      · show st.currentStep + 1 < st.totalSteps ∨ (st.totalSteps = 0 ∧ st.currentStep + 1 = 0)
        omega
  | prevStep =>
    refine ⟨h1, ?_, ?_⟩
    · show 0 ≤ max 0 (st.currentStep - 1)
      omega
    · show max 0 (st.currentStep - 1) < st.totalSteps ∨
        (st.totalSteps = 0 ∧ max 0 (st.currentStep - 1) = 0)
      omega
  | play => exact ⟨h1, h2, h3⟩
  | pause => exact ⟨h1, h2, h3⟩
  | reset =>
    refine ⟨h1, le_refl 0, ?_⟩
    show (0 : Int) < st.totalSteps ∨ (st.totalSteps = 0 ∧ (0 : Int) = 0)
    omega
  | setSpeed s => exact ⟨h1, h2, h3⟩
  | setResult r => exact ⟨h1, h2, h3⟩

/-- C7: after any sequence of playback operations starting from the initial state, the
cursor satisfies `0 ≤ cursor` and `cursor < totalSteps` (or `cursor = 0` for an empty
trace), with `totalSteps` tracking the loaded trace; every move is clamped, none errors. -/
theorem playback_cursor_in_range (ops : List (PlaybackOp α)) :
    cursorInv (applyOps ops initialState) := by
  suffices h : ∀ st : VisualizationState α, cursorInv st → cursorInv (applyOps ops st) from
    h _ (by simp [cursorInv, initialState])
  induction ops with
  | nil => exact fun st h => h
  | cons op rest ih => exact fun st h => ih _ (applyOp_cursorInv st op h)

/-- For a non-negative numerator, `Int` division by a larger positive denominator gives
a smaller quotient. -/
theorem int_div_le_div_of_le (x a b : Int) (hx : 0 ≤ x) (ha : 0 < a) (hab : a ≤ b) :
    x / b ≤ x / a := by
  have hb : (0 : Int) < b := lt_of_lt_of_le ha hab
  rw [Int.le_ediv_iff_mul_le ha]
  calc x / b * a ≤ x / b * b :=
        mul_le_mul_of_nonneg_left hab (Int.ediv_nonneg hx (le_of_lt hb))
    _ ≤ x := Int.ediv_mul_le x (ne_of_gt hb)

/-- C3, amended: in condensed mode a higher detailLevel yields a coarser (never finer)
sampling — for fixed n ≥ 0 and effective detail levels in `[1, 99]`, the sample stride of
both the iterative and the dp-array path is monotonically non-decreasing in detailLevel,
so raising detailLevel removes emitted steps rather than adding them (detailLevel = 100
is the extreme: its stride is `Infinity`, minimal density). -/
theorem fib_sample_rate_monotone (n d1 d2 : Int) (hn : 0 ≤ n) (h1 : 1 ≤ d1)
    (h12 : d1 ≤ d2) (h99 : d2 ≤ 99) :
    (∀ r1 r2, iterSampleRate n "condensed" d1 = some r1 →
      iterSampleRate n "condensed" d2 = some r2 → r1 ≤ r2) ∧
    dpSampleRate n "condensed" d1 ≤ dpSampleRate n "condensed" d2 := by
  constructor
  · intro r1 r2 hr1 hr2
    have e1 : iterSampleRate n "condensed" d1 = some (max 1 (n / (100 - d1))) := by
      unfold iterSampleRate
      rw [if_pos rfl, if_neg (show ¬ d1 = 100 by omega)]
    have e2 : iterSampleRate n "condensed" d2 = some (max 1 (n / (100 - d2))) := by
      unfold iterSampleRate
      rw [if_pos rfl, if_neg (show ¬ d2 = 100 by omega)]
    rw [e1] at hr1
    rw [e2] at hr2
    injection hr1 with hr1
    injection hr2 with hr2
    subst hr1
    subst hr2
    exact max_le_max (le_refl 1)
      (int_div_le_div_of_le n (100 - d2) (100 - d1) hn (by omega) (by omega))
  · unfold dpSampleRate
    rw [if_pos rfl, if_pos rfl]
    refine max_le_max (le_refl 1) ?_
    refine int_div_le_div_of_le n (max 1 ((100 - d2) * 10)) (max 1 ((100 - d1) * 10)) hn
      (lt_of_lt_of_le Int.zero_lt_one (le_max_left 1 _)) ?_
    exact max_le_max (le_refl 1) (by omega)

/-- Witness for `fib_sample_rate_monotone` at n = 100, detail levels 30 and 60. -/
theorem fib_sample_rate_monotone_witness :
    ((0 : Int) ≤ 100 ∧ (1 : Int) ≤ 30 ∧ (30 : Int) ≤ 60 ∧ (60 : Int) ≤ 99) ∧
    ((∀ r1 r2, iterSampleRate 100 "condensed" 30 = some r1 →
        iterSampleRate 100 "condensed" 60 = some r2 → r1 ≤ r2) ∧
      dpSampleRate 100 "condensed" 30 ≤ dpSampleRate 100 "condensed" 60) :=
  ⟨⟨by decide, by decide, by decide, by decide⟩,
   fib_sample_rate_monotone 100 30 60 (by decide) (by decide) (by decide) (by decide)⟩

/-- C3, counterexample: raising detailLevel from 20 to 90 (iterative path) or from 20 to
99 (dp path) at n = 100 in condensed mode drops the number of `compute`/`store` steps
from 198 to 36 — the step count is not monotonically non-decreasing in detailLevel. -/
theorem fib_detail_level_cex :
    (20 : Int) < 90 ∧ (20 : Int) < 99 ∧
    fibComputeStoreCount
      (fibonacciRunner.generateSteps ⟨100, some "iterative", some 20, some "condensed"⟩) = 198 ∧
    fibComputeStoreCount
      (fibonacciRunner.generateSteps ⟨100, some "iterative", some 90, some "condensed"⟩) = 36 ∧
    fibComputeStoreCount
      (fibonacciRunner.generateSteps ⟨100, none, some 20, some "condensed"⟩) = 198 ∧
    fibComputeStoreCount
      (fibonacciRunner.generateSteps ⟨100, none, some 99, some "condensed"⟩) = 36 := by
  refine ⟨by decide, by decide, by decide, by decide, by decide, by decide⟩

/-- Every Fibonacci trace ends in a `complete` step. -/
theorem fib_generateSteps_lastKind (input : FibInput) :
    ∃ s : FibStep, (fibonacciRunner.generateSteps input).getLast? = some s ∧
      s.kind = "complete" := by
  simp only [fibonacciRunner.generateSteps]
  split
  · exact ⟨_, getLast?_append_singleton [_, _] _, rfl⟩
  split
  · exact ⟨_, getLast?_append_singleton [_, _] _, rfl⟩
  split
  · exact ⟨_, getLast?_append_singleton _ _, rfl⟩
  · refine ⟨_, getLast?_append_singleton _ _, ?_⟩
    split <;> rfl

/-- Every N-Queens trace ends in a `complete` step. -/
theorem nq_generateSteps_lastKind (input : NQInput) :
    ∃ s : NQStep, (nQueensRunner.generateSteps input).getLast? = some s ∧
      s.kind = "complete" := by
  simp only [nQueensRunner.generateSteps, nqAssemble]
  exact ⟨_, getLast?_append_singleton _ _, rfl⟩

/-- C1: for every validated input, the trace returned by either runner is non-empty and
its last step's kind is one of `complete`, `no-solution`, `step-limit` (for these two
runners it is in fact always `complete`). -/
theorem traces_nonempty_terminal (fi : FibInput) (ni : NQInput)
    (hf : (fibonacciRunner.validateInput fi).valid = true)
    (hn : (nQueensRunner.validateInput ni).valid = true) :
    (fibonacciRunner.generateSteps fi ≠ [] ∧
      ∀ s, (fibonacciRunner.generateSteps fi).getLast? = some s → s.kind ∈ terminalKinds) ∧
    (nQueensRunner.generateSteps ni ≠ [] ∧
      ∀ s, (nQueensRunner.generateSteps ni).getLast? = some s → s.kind ∈ terminalKinds) := by
  obtain ⟨sf, hsf, hkf⟩ := fib_generateSteps_lastKind fi
  obtain ⟨sn, hsn, hkn⟩ := nq_generateSteps_lastKind ni
  refine ⟨⟨?_, ?_⟩, ?_, ?_⟩
  · intro hnil; rw [hnil] at hsf; exact Option.noConfusion hsf
  · intro s hs; rw [hs] at hsf; cases hsf; rw [hkf]; simp [terminalKinds]
  · intro hnil; rw [hnil] at hsn; exact Option.noConfusion hsn
  · intro s hs; rw [hs] at hsn; cases hsn; rw [hkn]; simp [terminalKinds]

/-- Witness for `traces_nonempty_terminal` at the runners' default inputs. -/
theorem traces_nonempty_terminal_witness :
    (fibonacciRunner.validateInput ⟨20, some "dp-array", some 50, some "full"⟩).valid = true ∧
    (nQueensRunner.validateInput ⟨8, some 1, some "full", some false⟩).valid = true ∧
    ((fibonacciRunner.generateSteps ⟨20, some "dp-array", some 50, some "full"⟩ ≠ [] ∧
      ∀ s, (fibonacciRunner.generateSteps ⟨20, some "dp-array", some 50, some "full"⟩).getLast?
          = some s → s.kind ∈ terminalKinds) ∧
     (nQueensRunner.generateSteps ⟨8, some 1, some "full", some false⟩ ≠ [] ∧
      ∀ s, (nQueensRunner.generateSteps ⟨8, some 1, some "full", some false⟩).getLast?
          = some s → s.kind ∈ terminalKinds)) :=
  ⟨by decide, by decide,
   traces_nonempty_terminal ⟨20, some "dp-array", some 50, some "full"⟩
     ⟨8, some 1, some "full", some false⟩ (by decide) (by decide)⟩

/-- C10: every N-Queens trace ends with a `complete` step, and a `no-solution` or
`step-limit` step is never the final step of the trace. -/
theorem nqueens_terminal_is_complete (input : NQInput) (h : 0 ≤ input.n) :
    (∀ s, (nQueensRunner.generateSteps input).getLast? = some s → s.kind = "complete") ∧
    (∀ i (hi : i < (nQueensRunner.generateSteps input).length),
      (((nQueensRunner.generateSteps input).get ⟨i, hi⟩).kind = "no-solution" ∨
       ((nQueensRunner.generateSteps input).get ⟨i, hi⟩).kind = "step-limit") →
      i + 1 < (nQueensRunner.generateSteps input).length) := by
  obtain ⟨sn, hsn, hkn⟩ := nq_generateSteps_lastKind input
  constructor
  · intro s hs; rw [hs] at hsn; cases hsn; exact hkn
  · intro i hi hk
    by_contra hlt
    have hieq : i = (nQueensRunner.generateSteps input).length - 1 := by omega
    subst hieq
    have h1 : some sn =
        (nQueensRunner.generateSteps input)[(nQueensRunner.generateSteps input).length - 1]? := by
      rw [← hsn, List.getLast?_eq_getElem?]
    rw [List.getElem?_eq_getElem hi] at h1
    have h2 : sn = (nQueensRunner.generateSteps input).get
        ⟨(nQueensRunner.generateSteps input).length - 1, hi⟩ := Option.some.inj h1
    rw [← h2, hkn] at hk
    rcases hk with hk | hk <;> exact absurd hk (by decide)

/-- Witness for `nqueens_terminal_is_complete` at n = 4, maxSolutions = 10. -/
theorem nqueens_terminal_is_complete_witness :
    (0 : Int) ≤ 4 ∧
    ((∀ s, (nQueensRunner.generateSteps ⟨4, some 10, none, none⟩).getLast? = some s →
        s.kind = "complete") ∧
     (∀ i (hi : i < (nQueensRunner.generateSteps ⟨4, some 10, none, none⟩).length),
       (((nQueensRunner.generateSteps ⟨4, some 10, none, none⟩).get ⟨i, hi⟩).kind
           = "no-solution" ∨
        ((nQueensRunner.generateSteps ⟨4, some 10, none, none⟩).get ⟨i, hi⟩).kind
           = "step-limit") →
       i + 1 < (nQueensRunner.generateSteps ⟨4, some 10, none, none⟩).length)) :=
  ⟨by decide, nqueens_terminal_is_complete ⟨4, some 10, none, none⟩ (by decide)⟩

/-! #### Agreement of the three Fibonacci strategies (C2) -/

theorem iterFibLoop_fib (m : Nat) : ∀ k : Nat,
    iterFibLoop m (Nat.fib k) (Nat.fib (k + 1)) = (Nat.fib (k + 1 + m) : Int) := by
  induction m with
  | zero => intro k; rfl
  | succ m ih =>
    intro k
    have hsum : ((Nat.fib k : Int)) + (Nat.fib (k + 1) : Int) = (Nat.fib (k + 1 + 1) : Int) := by
      rw [show k + 1 + 1 = k + 2 from rfl, Nat.fib_add_two]
      push_cast
      ring
    calc iterFibLoop (m + 1) (Nat.fib k) (Nat.fib (k + 1))
        = iterFibLoop m (Nat.fib (k + 1)) ((Nat.fib k : Int) + (Nat.fib (k + 1) : Int)) := rfl
      _ = iterFibLoop m (Nat.fib (k + 1)) (Nat.fib (k + 1 + 1)) := by rw [hsum]
      _ = (Nat.fib (k + 1 + 1 + m) : Int) := ih (k + 1)
      _ = (Nat.fib (k + 1 + (m + 1)) : Int) := by
          rw [show k + 1 + 1 + m = k + 1 + (m + 1) from by omega]

/-- `iterativeFib` computes the Fibonacci function. -/
theorem iterativeFib_fib (n : Int) (h : 0 ≤ n) : iterativeFib n = (Nat.fib n.toNat : Int) := by
  unfold iterativeFib
  split
  · next hle =>
    have : n = 0 ∨ n = 1 := by omega
    rcases this with rfl | rfl <;> rfl
  · next hgt =>
    have h2 : (2 : Int) ≤ n := by omega
    have hloop := iterFibLoop_fib (n - 1).toNat 0
    rw [Nat.fib_zero, Nat.fib_one] at hloop
    rw [show ((0 : Nat) : Int) = 0 from rfl, show ((1 : Nat) : Int) = 1 from rfl] at hloop
    rw [hloop, show 0 + 1 + (n - 1).toNat = n.toNat from by omega]

/-- `fibHelper k` returns the pair `(F(k), F(k+1))`. -/
theorem fibHelper_fib (k : Nat) :
    fibHelper k = ((Nat.fib k : Int), (Nat.fib (k + 1) : Int)) := by
  induction k using Nat.strong_induction_on with
  | _ k ih =>
    match k with
    | 0 => simp [fibHelper]
    | 1 => simp [fibHelper]
    | k + 2 =>
      have hm : (k + 2) / 2 < k + 2 := by omega
      have hle : Nat.fib ((k + 2) / 2) ≤ 2 * Nat.fib ((k + 2) / 2 + 1) :=
        le_trans Nat.fib_le_fib_succ (by omega)
      have hc : ((Nat.fib (2 * ((k + 2) / 2)) : Int)) =
          (Nat.fib ((k + 2) / 2) : Int) *
            (2 * (Nat.fib ((k + 2) / 2 + 1) : Int) - (Nat.fib ((k + 2) / 2) : Int)) := by
        rw [Nat.fib_two_mul]
        push_cast [hle]
        ring
      have hd : ((Nat.fib (2 * ((k + 2) / 2) + 1) : Int)) =
          (Nat.fib ((k + 2) / 2 + 1) : Int) * (Nat.fib ((k + 2) / 2 + 1) : Int) +
            (Nat.fib ((k + 2) / 2) : Int) * (Nat.fib ((k + 2) / 2) : Int) := by
        rw [Nat.fib_two_mul_add_one]
        push_cast
        ring
      simp only [fibHelper, ih ((k + 2) / 2) hm]
      by_cases hpar : (k + 2) % 2 = 0
      · have h2m : 2 * ((k + 2) / 2) = k + 2 := by omega
        rw [if_pos hpar, Prod.mk.injEq]
        constructor
        · rw [← hc, h2m]
        · rw [← hd, h2m]
      · have h2m : 2 * ((k + 2) / 2) + 1 = k + 2 := by omega
        rw [if_neg hpar, Prod.mk.injEq]
        constructor
        · rw [← hd, h2m]
        · have : ((Nat.fib (2 * ((k + 2) / 2)) : Int)) + (Nat.fib (2 * ((k + 2) / 2) + 1) : Int) =
              (Nat.fib (2 * ((k + 2) / 2) + 2) : Int) := by
            rw [Nat.fib_add_two]
            push_cast
            ring
          rw [← hc, ← hd, this, show 2 * ((k + 2) / 2) + 2 = k + 2 + 1 from by omega]

/-- `fastDoubling` computes the Fibonacci function. -/
theorem fastDoubling_fib (n : Int) (h : 0 ≤ n) : fastDoubling n = (Nat.fib n.toNat : Int) := by
  unfold fastDoubling
  split
  · next h0 => subst h0; rfl
  split
  · next h1 => subst h1; rfl
  · rw [fibHelper_fib]

theorem jsArraySet_length (l : List Int) (i : Nat) (v : Int) (h : i ≤ l.length) :
    (jsArraySet l i v).length = max l.length (i + 1) := by
  unfold jsArraySet
  split
  · next hlt => simp [List.length_set]; omega
  · next hge =>
    have hi : i = l.length := by omega
    subst hi
    simp

theorem jsArraySet_getD_self (l : List Int) (i : Nat) (v : Int) (h : i ≤ l.length) :
    (jsArraySet l i v).getD i 0 = v := by
  unfold jsArraySet
  split
  · next hlt =>
    rw [List.getD_eq_getElem?_getD, List.getElem?_set_self hlt]
    rfl
  · next hge =>
    have hi : i = l.length := by omega
    subst hi
    simp

theorem jsArraySet_getD_ne (l : List Int) (i j : Nat) (v : Int) (h : i ≤ l.length)
    (hij : j ≠ i) : (jsArraySet l i v).getD j 0 = l.getD j 0 := by
  unfold jsArraySet
  split
  · next hlt =>
    rw [List.getD_eq_getElem?_getD, List.getD_eq_getElem?_getD,
      List.getElem?_set_ne (Ne.symm hij)]
  · next hge =>
    have hi : i = l.length := by omega
    subst hi
    rcases Nat.lt_or_ge j l.length with hj | hj
    · simp only [Nat.sub_self, List.replicate_zero, List.append_nil]
      rw [List.getD_eq_getElem?_getD, List.getD_eq_getElem?_getD,
        List.getElem?_append, if_pos hj]
    · have hj2 : l.length < j := by omega
      rw [List.getD_eq_getElem?_getD, List.getD_eq_getElem?_getD,
        List.getElem?_eq_none hj, List.getElem?_eq_none (by simp; omega)]

/-- The dp table built by the loop does not depend on the sampling parameters. -/
theorem dpSteps_fst (mode mode' : String) (sr sr' n : Int) (fuel : Nat) :
    ∀ (i : Int) (dp : List Int),
      (dpSteps mode sr n fuel i dp).1 = (dpSteps mode' sr' n fuel i dp).1 := by
  induction fuel with
  | zero => intro i dp; rfl
  | succ fuel ih => intro i dp; simp only [dpSteps]; exact ih (i + 1) _

/-- Main dp-loop invariant: after running the loop, every index below `i + fuel` holds
the corresponding Fibonacci number. -/
theorem dpSteps_table (mode : String) (sr n : Int) (fuel : Nat) :
    ∀ (i : Int) (dp : List Int),
      2 ≤ i →
      i.toNat ≤ dp.length →
      (∀ j : Nat, (j : Int) < i → dp.getD j 0 = (Nat.fib j : Int)) →
      ∀ j : Nat, (j : Int) < i + fuel →
        ((dpSteps mode sr n fuel i dp).1).getD j 0 = (Nat.fib j : Int) := by
  induction fuel with
  | zero =>
    intro i dp h2 hlen hinv j hj
    exact hinv j (by omega)
  | succ fuel ih =>
    intro i dp h2 hlen hinv j hj
    simp only [dpSteps]
    have hp1 : dp.getD (i - 1).toNat 0 = (Nat.fib (i - 1).toNat : Int) :=
      hinv (i - 1).toNat (by omega)
    have hp2 : dp.getD (i - 2).toNat 0 = (Nat.fib (i - 2).toNat : Int) :=
      hinv (i - 2).toNat (by omega)
    have hsum : dp.getD (i - 1).toNat 0 + dp.getD (i - 2).toNat 0 = (Nat.fib i.toNat : Int) := by
      rw [hp1, hp2, show i.toNat = (i - 2).toNat + 2 from by omega,
        show (i - 1).toNat = (i - 2).toNat + 1 from by omega, Nat.fib_add_two]
      push_cast
      ring
    have hwr : i.toNat ≤ dp.length := hlen
    apply ih (i + 1)
    · omega
    · rw [jsArraySet_length _ _ _ hwr]
      omega
    · intro j' hj'
      rcases Nat.lt_or_ge j' i.toNat with hlt | hge
      · rw [jsArraySet_getD_ne _ _ _ _ hwr (by omega)]
        exact hinv j' (by omega)
      · have hj'i : j' = i.toNat := by omega
        subst hj'i
        rw [jsArraySet_getD_self _ _ _ hwr, hsum]
    · omega

theorem dpInit_spec (n : Int) (h : 2 ≤ n) :
    (dpInit n).length = (min (n + 1) MAX_DP_ARRAY_SIZE).toNat ∧
    (dpInit n).getD 0 0 = 0 ∧ (dpInit n).getD 1 0 = 1 := by
  have hsz : 3 ≤ (min (n + 1) MAX_DP_ARRAY_SIZE).toNat := by
    simp only [MAX_DP_ARRAY_SIZE]
    omega
  have hlen0 : (List.replicate (min (n + 1) MAX_DP_ARRAY_SIZE).toNat (0 : Int)).length =
      (min (n + 1) MAX_DP_ARRAY_SIZE).toNat := List.length_replicate ..
  have h0le : (0 : Nat) ≤ (List.replicate (min (n + 1) MAX_DP_ARRAY_SIZE).toNat (0 : Int)).length := by
    omega
  have hlen1 : (jsArraySet (List.replicate (min (n + 1) MAX_DP_ARRAY_SIZE).toNat 0) 0 0).length =
      (min (n + 1) MAX_DP_ARRAY_SIZE).toNat := by
    rw [jsArraySet_length _ _ _ h0le, hlen0]
    omega
  have h1le : (1 : Nat) ≤ (jsArraySet (List.replicate (min (n + 1) MAX_DP_ARRAY_SIZE).toNat 0) 0 0).length := by
    omega
  refine ⟨?_, ?_, ?_⟩
  · rw [dpInit, jsArraySet_length _ _ _ h1le, hlen1]
    omega
  · rw [dpInit, jsArraySet_getD_ne _ _ _ _ h1le (by omega),
      jsArraySet_getD_self _ _ _ h0le]
  · rw [dpInit, jsArraySet_getD_self _ _ _ h1le]

/-- The dp-array path leaves `F(n)` at index `n` (for `n` within the table cap). -/
theorem fibTabulated_fib (n : Int) (h0 : 0 ≤ n) (h1 : n ≤ MAX_DP_ARRAY_SIZE) :
    fibTabulated n = (Nat.fib n.toNat : Int) := by
  unfold fibTabulated
  split
  · next hle =>
    have : n = 0 ∨ n = 1 := by omega
    rcases this with rfl | rfl <;> rfl
  · next hgt =>
    have h2 : (2 : Int) ≤ n := by omega
    obtain ⟨hlen, hd0, hd1⟩ := dpInit_spec n h2
    apply dpSteps_table "full" 1 n (min n MAX_DP_ARRAY_SIZE - 1).toNat 2 (dpInit n) (by omega)
    · rw [hlen]
      simp only [MAX_DP_ARRAY_SIZE] at *
      omega
    · intro j hj
      have : j = 0 ∨ j = 1 := by omega
      rcases this with rfl | rfl
      · simpa using hd0
      · simpa using hd1
    · simp only [MAX_DP_ARRAY_SIZE] at *
      omega

/-- C2: for every valid `n` within the dp-table cap, the three strategies agree — the
dp table holds `F(n)` at index `n`, and it equals `iterativeFib n` and `fastDoubling n`;
moreover the dp-array path's `complete` step carries exactly that value. -/
theorem fib_strategies_agree (n : Int) (dl : Option Int) (h0 : 0 ≤ n)
    (h1 : n ≤ MAX_DP_ARRAY_SIZE) :
    fibTabulated n = iterativeFib n ∧ iterativeFib n = fastDoubling n ∧
    (2 ≤ n → (fibonacciRunner.generateSteps ⟨n, none, dl, none⟩).getLast? =
      some (FibStep.complete n (fibTabulated n))) := by
  refine ⟨?_, ?_, ?_⟩
  · rw [fibTabulated_fib n h0 h1, iterativeFib_fib n h0]
  · rw [iterativeFib_fib n h0, fastDoubling_fib n h0]
  · intro h2
    simp only [fibonacciRunner.generateSteps]
    rw [if_neg (by omega : ¬ n ≤ 1)]
    have hmode : fibMode n none = fibDerivedMode n := rfl
    have hne : ¬ (fibMode n none = "computation-only" ∨ n > MAX_DP_ARRAY_SIZE) := by
      rw [hmode]
      unfold fibDerivedMode
      push_neg
      constructor
      · by_cases h50 : n ≤ 50
        · rw [if_pos h50]; decide
        · rw [if_neg h50, if_pos h1]; decide
      · omega
    rw [if_neg hne]
    rw [if_neg (by decide : ¬ ((none : Option String).getD "dp-array") = "iterative")]
    rw [getLast?_append_singleton]
    rw [if_neg (by omega : ¬ n > MAX_DP_ARRAY_SIZE)]
    have htab : fibTabulated n =
        ((dpSteps (fibMode n none) (dpSampleRate n (fibMode n none) (effDetailLevel dl)) n
          (min n MAX_DP_ARRAY_SIZE - 1).toNat 2 (dpInit n)).1).getD n.toNat 0 := by
      unfold fibTabulated
      rw [if_neg (by omega : ¬ n ≤ 1),
        dpSteps_fst (fibMode n none) "full" (dpSampleRate n (fibMode n none) (effDetailLevel dl)) 1]
    rw [htab]

/-- Witness for `fib_strategies_agree` at each of n ∈ 0, 1, 2, 10, 20, 50, 78, 79, 100. -/
theorem fib_strategies_agree_witness :
    (fibTabulated 0 = iterativeFib 0 ∧ iterativeFib 0 = fastDoubling 0) ∧
    (fibTabulated 1 = iterativeFib 1 ∧ iterativeFib 1 = fastDoubling 1) ∧
    (fibTabulated 2 = iterativeFib 2 ∧ iterativeFib 2 = fastDoubling 2) ∧
    (fibTabulated 10 = iterativeFib 10 ∧ iterativeFib 10 = fastDoubling 10) ∧
    (fibTabulated 20 = iterativeFib 20 ∧ iterativeFib 20 = fastDoubling 20) ∧
    (fibTabulated 50 = iterativeFib 50 ∧ iterativeFib 50 = fastDoubling 50) ∧
    (fibTabulated 78 = iterativeFib 78 ∧ iterativeFib 78 = fastDoubling 78) ∧
    (fibTabulated 79 = iterativeFib 79 ∧ iterativeFib 79 = fastDoubling 79) ∧
    (fibTabulated 100 = iterativeFib 100 ∧ iterativeFib 100 = fastDoubling 100) ∧
    (fibonacciRunner.generateSteps ⟨100, none, some 50, none⟩).getLast? =
      some (FibStep.complete 100 (fibTabulated 100)) :=
  ⟨⟨(fib_strategies_agree 0 none (by decide) (by decide)).1,
    (fib_strategies_agree 0 none (by decide) (by decide)).2.1⟩,
   ⟨(fib_strategies_agree 1 none (by decide) (by decide)).1,
    (fib_strategies_agree 1 none (by decide) (by decide)).2.1⟩,
   ⟨(fib_strategies_agree 2 none (by decide) (by decide)).1,
    (fib_strategies_agree 2 none (by decide) (by decide)).2.1⟩,
   ⟨(fib_strategies_agree 10 none (by decide) (by decide)).1,
    (fib_strategies_agree 10 none (by decide) (by decide)).2.1⟩,
   ⟨(fib_strategies_agree 20 none (by decide) (by decide)).1,
    (fib_strategies_agree 20 none (by decide) (by decide)).2.1⟩,
   ⟨(fib_strategies_agree 50 none (by decide) (by decide)).1,
    (fib_strategies_agree 50 none (by decide) (by decide)).2.1⟩,
   ⟨(fib_strategies_agree 78 none (by decide) (by decide)).1,
    (fib_strategies_agree 78 none (by decide) (by decide)).2.1⟩,
   ⟨(fib_strategies_agree 79 none (by decide) (by decide)).1,
    (fib_strategies_agree 79 none (by decide) (by decide)).2.1⟩,
   ⟨(fib_strategies_agree 100 none (by decide) (by decide)).1,
    (fib_strategies_agree 100 none (by decide) (by decide)).2.1⟩,
   (fib_strategies_agree 100 (some 50) (by decide) (by decide)).2.2 (by decide)⟩

/-- C6: the N-Queens runner finds exactly 2 solutions for n = 4 with maxSolutions = 10,
exactly 1 solution for n = 8 with maxSolutions = 1, and 0 solutions for n = 2 and n = 3
for every maxSolutions, in which case the trace contains a `no-solution` step. -/
theorem nqueens_solution_counts :
    nqSolutionSteps (nQueensRunner.generateSteps ⟨4, some 10, none, none⟩) = 2 ∧
    nqSolutionSteps (nQueensRunner.generateSteps ⟨8, some 1, none, none⟩) = 1 ∧
    ∀ m : Option Int,
      (nqSolutionSteps (nQueensRunner.generateSteps ⟨2, m, none, none⟩) = 0 ∧
       nqHasKind (nQueensRunner.generateSteps ⟨2, m, none, none⟩) "no-solution" = true) ∧
      (nqSolutionSteps (nQueensRunner.generateSteps ⟨3, m, none, none⟩) = 0 ∧
       nqHasKind (nQueensRunner.generateSteps ⟨3, m, none, none⟩) "no-solution" = true) := by
  refine ⟨by decide, by decide, fun m => ⟨⟨?_, ?_⟩, ⟨?_, ?_⟩⟩⟩ <;>
    simp [nQueensRunner.generateSteps, nqAssemble, nqSolutionSteps, nqHasKind, solveTrad,
      solveTradCols, pushIf, nqShouldSample, nqShouldCheck, isSafeTraditional, jsArraySet,
      effMaxSolutions, MAX_N, NQStep.kind, List.range_succ]

/-! #### Solver invariants (C9) -/

theorem pushIf_solutions (c : Bool) (s : NQStep) (st : NQState) :
    (pushIf c s st).solutions = st.solutions := by
  cases c <;> rfl

theorem pushIf_inv (n : Nat) (c : Bool) (s : NQStep) (st : NQState)
    (h : nqBasicInv n st) (hb : ∀ b ∈ s.boards, b.length = n)
    (hk : (s.kind == "solution-found") = false) :
    nqBasicInv n (pushIf c s st) := by
  obtain ⟨h1, h2, h3, h4⟩ := h
  cases c
  · exact ⟨h1, h2, h3, h4⟩
  · refine ⟨h1, h2, ?_, ?_⟩
    · intro s' hs' b hb'
      rcases List.mem_cons.mp hs' with rfl | hs'
      · exact hb b hb'
      · exact h3 s' hs' b hb'
    · show List.countP (fun t => t.kind == "solution-found") (s :: st.steps) =
        st.solutions.length
      rw [List.countP_cons]
      simp [hk, h4]

theorem setBoard_inv (n : Nat) (st : NQState) (row : Nat) (v : Int)
    (h : nqBasicInv n st) (hrow : row < n) :
    nqBasicInv n { st with board := jsArraySet st.board row v } := by
  obtain ⟨h1, h2, h3, h4⟩ := h
  refine ⟨?_, h2, h3, h4⟩
  rw [jsArraySet_length st.board row v (by omega), h1]
  omega

theorem nqContract_of_self (n : Nat) (maxSol : Int) (st : NQState) (h : nqBasicInv n st) :
    nqContract n maxSol st (st, false) :=
  ⟨h, fun hlt => ⟨le_of_lt hlt, fun _ => hlt⟩⟩

/-- The `row == n` branch of both solvers satisfies the contract. -/
theorem solutionState_contract (n : Nat) (maxSol : Int) (st : NQState)
    (h : nqBasicInv n st) :
    nqContract n maxSol st
      (let sols := st.solutions ++ [st.board]
       ({ st with solutions := sols,
                  steps := .solutionFound st.board n sols.length :: st.steps },
        decide ((sols.length : Int) ≥ maxSol))) := by
  obtain ⟨h1, h2, h3, h4⟩ := h
  refine ⟨⟨h1, ?_, ?_, ?_⟩, ?_⟩
  · intro b hb
    rcases List.mem_append.mp hb with hb | hb
    · exact h2 b hb
    · rw [List.mem_singleton.mp hb]
      exact h1
  · intro s' hs' b hb'
    rcases List.mem_cons.mp hs' with rfl | hs'
    · rw [List.mem_singleton.mp hb']
      exact h1
    · exact h3 s' hs' b hb'
  · show List.countP (fun t => t.kind == "solution-found")
        (NQStep.solutionFound st.board n (st.solutions ++ [st.board]).length :: st.steps) =
      (st.solutions ++ [st.board]).length
    rw [List.countP_cons]
    simp only [List.length_append, List.length_singleton, beq_iff_eq, h4]
    rw [if_pos (show (NQStep.solutionFound st.board n (st.solutions.length + 1)).kind
      = "solution-found" from rfl)]
  · intro hlt
    have hlen : (((st.solutions ++ [st.board]).length : Nat) : Int) =
        (st.solutions.length : Int) + 1 := by
      rw [List.length_append, List.length_singleton]
      push_cast
      ring
    constructor
    · show (((st.solutions ++ [st.board]).length : Nat) : Int) ≤ maxSol
      omega
    · intro hfalse
      have hnot := of_decide_eq_false hfalse
      show (((st.solutions ++ [st.board]).length : Nat) : Int) < maxSol
      omega

/-- The `step-limit` branch of both solvers satisfies the contract. -/
theorem stepLimitState_contract (n : Nat) (maxSol : Int) (st : NQState)
    (h : nqBasicInv n st) :
    nqContract n maxSol st
      ({ st with steps := .stepLimit n st.solutions.length :: st.steps }, true) := by
  obtain ⟨h1, h2, h3, h4⟩ := h
  refine ⟨⟨h1, h2, ?_, ?_⟩, ?_⟩
  · intro s' hs' b hb'
    rcases List.mem_cons.mp hs' with rfl | hs'
    · simp [NQStep.boards] at hb'
    · exact h3 s' hs' b hb'
  · show List.countP (fun t => t.kind == "solution-found")
        (NQStep.stepLimit n st.solutions.length :: st.steps) = st.solutions.length
    rw [List.countP_cons]
    simp [show ((NQStep.stepLimit n st.solutions.length).kind == "solution-found") = false
      from rfl, h4]
  · intro hlt
    exact ⟨le_of_lt hlt, fun hft => Bool.noConfusion hft⟩

theorem solveTradCols_contract (n : Nat) (mode : String) (row : Nat) (ss : Bool)
    (maxSol : Int) (recur : NQState → NQState × Bool)
    (hrec : ∀ st, nqBasicInv n st → nqContract n maxSol st (recur st))
    (hrow : row < n) :
    ∀ (cols : List Nat) (st : NQState), nqBasicInv n st →
      nqContract n maxSol st (solveTradCols n mode row ss recur cols st) := by
  intro cols
  induction cols with
  | nil => intro st h; exact nqContract_of_self n maxSol st h
  | cons col rest ih =>
    intro st h
    simp only [solveTradCols]
    have h1 : nqBasicInv n
        (pushIf (nqShouldCheck mode n col && ss) (.tryCol row col st.board n) st) :=
      pushIf_inv n _ _ st h
        (by intro b hb; rw [List.mem_singleton.mp hb]; exact h.1) rfl
    set st1 := pushIf (nqShouldCheck mode n col && ss) (.tryCol row col st.board n) st with hst1
    have h2 : nqBasicInv n
        (pushIf (nqShouldCheck mode n col && ss)
          (.checkSafe row col (isSafeTraditional row col st1.board) st1.board n) st1) :=
      pushIf_inv n _ _ st1 h1
        (by intro b hb; rw [List.mem_singleton.mp hb]; exact h1.1) rfl
    set st2 := pushIf (nqShouldCheck mode n col && ss)
      (.checkSafe row col (isSafeTraditional row col st1.board) st1.board n) st1 with hst2
    have hsols2 : st2.solutions = st.solutions := by
      rw [hst2, pushIf_solutions, hst1, pushIf_solutions]
    split
    · -- safe: place the queen and recurse
      have h3 : nqBasicInv n { st2 with board := jsArraySet st2.board row (col : Int) } :=
        setBoard_inv n st2 row (col : Int) h2 hrow
      set st3 := { st2 with board := jsArraySet st2.board row (col : Int) } with hst3
      have h4 : nqBasicInv n (pushIf ss (.placeQueen row col st3.board n) st3) :=
        pushIf_inv n _ _ st3 h3
          (by intro b hb; rw [List.mem_singleton.mp hb]; exact h3.1) rfl
      set st4 := pushIf ss (.placeQueen row col st3.board n) st3 with hst4
      have hsols4 : st4.solutions = st.solutions := by
        rw [hst4, pushIf_solutions, hst3]
        exact hsols2
      have hc := hrec st4 h4
      split
      · -- recur stopped the search
        refine ⟨hc.1, fun hlt => ?_⟩
        obtain ⟨hle, _⟩ := hc.2 (by rw [hsols4]; exact hlt)
        exact ⟨hle, fun hft => Bool.noConfusion hft⟩
      · -- recur returned false: backtrack and continue the loop
        next hfalse =>
        have hfalse' : (recur st4).2 = false := by
          cases hr : (recur st4).2
          · rfl
          · exact absurd hr hfalse
        have h5 : nqBasicInv n
            { (recur st4).1 with board := jsArraySet ((recur st4).1).board row (-1) } :=
          setBoard_inv n ((recur st4).1) row (-1) hc.1 hrow
        set st5 := { (recur st4).1 with board := jsArraySet ((recur st4).1).board row (-1) }
          with hst5
        have h6 : nqBasicInv n (pushIf ss (.backtrack row col st5.board n) st5) :=
          pushIf_inv n _ _ st5 h5
            (by intro b hb; rw [List.mem_singleton.mp hb]; exact h5.1) rfl
        set st6 := pushIf ss (.backtrack row col st5.board n) st5 with hst6
        have hsols6 : st6.solutions = ((recur st4).1).solutions := by
          rw [hst6, pushIf_solutions, hst5]
        have hres := ih st6 h6
        refine ⟨hres.1, fun hlt => ?_⟩
        have hlt4 := hc.2 (by rw [hsols4]; exact hlt)
        have hstrict := hlt4.2 hfalse'
        exact hres.2 (by rw [hsols6]; exact hstrict)
    · -- unsafe: continue the loop
      have hres := ih st2 h2
      refine ⟨hres.1, fun hlt => hres.2 (by rw [hsols2]; exact hlt)⟩

theorem solveTrad_contract (n : Nat) (mode : String) (interval : Nat)
    (maxSol maxSteps : Int) (fuel : Nat) :
    ∀ (row : Nat) (st : NQState), row ≤ n → nqBasicInv n st →
      nqContract n maxSol st (solveTrad n mode interval maxSol maxSteps fuel row st) := by
  induction fuel with
  | zero => intro row st _ h; exact nqContract_of_self n maxSol st h
  | succ fuel ih =>
    intro row st hrow h
    simp only [solveTrad]
    split
    · exact solutionState_contract n maxSol st h
    · next hne =>
      split
      · exact stepLimitState_contract n maxSol
          { st with stepCount := st.stepCount + 1 } h
      · have hrowlt : row < n := by
          have : row ≠ n := by simpa using hne
          omega
        have hrec : ∀ st', nqBasicInv n st' →
            nqContract n maxSol st'
              (solveTrad n mode interval maxSol maxSteps fuel (row + 1) st') :=
          fun st' h' => ih (row + 1) st' (by omega) h'
        have h1 : nqBasicInv n
            (pushIf (nqShouldSample mode interval n row) (.tryRow row st.board n)
              { st with stepCount := st.stepCount + 1 }) :=
          pushIf_inv n _ _ _ h
            (by intro b hb; rw [List.mem_singleton.mp hb]; exact h.1) rfl
        have hres := solveTradCols_contract n mode row
          (nqShouldSample mode interval n row) maxSol _ hrec hrowlt (List.range n) _ h1
        refine ⟨hres.1, fun hlt => hres.2 ?_⟩
        rw [pushIf_solutions]
        exact hlt

theorem solveBitCols_contract (n : Nat) (row : Nat) (cols diag1 diag2 : Nat) (ss : Bool)
    (maxSol : Int) (recur : Nat → Nat → Nat → NQState → NQState × Bool)
    (hrec : ∀ c d1 d2 st, nqBasicInv n st → nqContract n maxSol st (recur c d1 d2 st))
    (hrow : row < n) :
    ∀ (cs : List Nat) (st : NQState), nqBasicInv n st →
      nqContract n maxSol st (solveBitCols n row cols diag1 diag2 ss recur cs st) := by
  intro cs
  induction cs with
  | nil => intro st h; exact nqContract_of_self n maxSol st h
  | cons col rest ih =>
    intro st h
    simp only [solveBitCols]
    split
    · have h3 : nqBasicInv n { st with board := jsArraySet st.board row (col : Int) } :=
        setBoard_inv n st row (col : Int) h hrow
      set st3 := { st with board := jsArraySet st.board row (col : Int) } with hst3
      have h4 : nqBasicInv n (pushIf ss (.placeQueen row col st3.board n) st3) :=
        pushIf_inv n _ _ st3 h3
          (by intro b hb; rw [List.mem_singleton.mp hb]; exact h3.1) rfl
      set st4 := pushIf ss (.placeQueen row col st3.board n) st3 with hst4
      have hsols4 : st4.solutions = st.solutions := by
        rw [hst4, pushIf_solutions, hst3]
      have hc := hrec (cols ||| jsBit col) (diag1 ||| jsBit (row + 20 - col))
        (diag2 ||| jsBit (row + col)) st4 h4
      split
      · refine ⟨hc.1, fun hlt => ?_⟩
        obtain ⟨hle, _⟩ := hc.2 (by rw [hsols4]; exact hlt)
        exact ⟨hle, fun hft => Bool.noConfusion hft⟩
      · next hfalse =>
        set rr := recur (cols ||| jsBit col) (diag1 ||| jsBit (row + 20 - col))
          (diag2 ||| jsBit (row + col)) st4 with hrr
        have hfalse' : rr.2 = false := by
          cases hr : rr.2
          · rfl
          · exact absurd hr hfalse
        have h5 : nqBasicInv n { rr.1 with board := jsArraySet rr.1.board row (-1) } :=
          setBoard_inv n rr.1 row (-1) hc.1 hrow
        set st5 := { rr.1 with board := jsArraySet rr.1.board row (-1) } with hst5
        have h6 : nqBasicInv n (pushIf ss (.backtrack row col st5.board n) st5) :=
          pushIf_inv n _ _ st5 h5
            (by intro b hb; rw [List.mem_singleton.mp hb]; exact h5.1) rfl
        set st6 := pushIf ss (.backtrack row col st5.board n) st5 with hst6
        have hsols6 : st6.solutions = rr.1.solutions := by
          rw [hst6, pushIf_solutions, hst5]
        have hres := ih st6 h6
        refine ⟨hres.1, fun hlt => ?_⟩
        have hlt4 := hc.2 (by rw [hsols4]; exact hlt)
        have hstrict := hlt4.2 hfalse'
        exact hres.2 (by rw [hsols6]; exact hstrict)
    · have hres := ih st h
      exact ⟨hres.1, fun hlt => hres.2 hlt⟩

theorem solveBit_contract (n : Nat) (mode : String) (interval : Nat)
    (maxSol maxSteps : Int) (fuel : Nat) :
    ∀ (row cols diag1 diag2 : Nat) (st : NQState), row ≤ n → nqBasicInv n st →
      nqContract n maxSol st
        (solveBit n mode interval maxSol maxSteps fuel row cols diag1 diag2 st) := by
  induction fuel with
  | zero => intro row cols diag1 diag2 st _ h; exact nqContract_of_self n maxSol st h
  | succ fuel ih =>
    intro row cols diag1 diag2 st hrow h
    simp only [solveBit]
    split
    · exact solutionState_contract n maxSol st h
    · next hne =>
      split
      · exact stepLimitState_contract n maxSol
          { st with stepCount := st.stepCount + 1 } h
      · have hrowlt : row < n := by
          have : row ≠ n := by simpa using hne
          omega
        have hrec : ∀ c d1 d2 st', nqBasicInv n st' →
            nqContract n maxSol st'
              (solveBit n mode interval maxSol maxSteps fuel (row + 1) c d1 d2 st') :=
          fun c d1 d2 st' h' => ih (row + 1) c d1 d2 st' (by omega) h'
        have h1 : nqBasicInv n
            (pushIf (nqShouldSample mode interval n row) (.tryRow row st.board n)
              { st with stepCount := st.stepCount + 1 }) :=
          pushIf_inv n _ _ _ h
            (by intro b hb; rw [List.mem_singleton.mp hb]; exact h.1) rfl
        have hres := solveBitCols_contract n row cols diag1 diag2
          (nqShouldSample mode interval n row) maxSol _ hrec hrowlt (List.range n) _ h1
        refine ⟨hres.1, fun hlt => hres.2 ?_⟩
        rw [pushIf_solutions]
        exact hlt

theorem headD_mem (l : List (List Int)) (d : List Int) (h : l ≠ []) : l.headD d ∈ l := by
  cases l with
  | nil => exact absurd rfl h
  | cons a t => exact List.mem_cons_self a t

/-- A singleton trace whose step is not a `solution-found` step counts zero. -/
theorem countP_singleton_not_sf (s : NQStep) (h : (s.kind == "solution-found") = false) :
    List.countP (fun t => t.kind == "solution-found") [s] = 0 := by
  rw [List.countP_cons, List.countP_nil, h]
  rfl

/-- Every board in the assembled trace has length `n`, and its `solution-found` count is
the solver's solution count. -/
theorem nqAssemble_bounds (n : Nat) (st1 : NQState) (board : List Int)
    (hb : board.length = n) (hinv : nqBasicInv n st1) :
    (∀ s ∈ nqAssemble n board st1, ∀ b ∈ NQStep.boards s, b.length = n) ∧
    nqSolutionSteps (nqAssemble n board st1) = st1.solutions.length := by
  obtain ⟨h1, h2, h3, h4⟩ := hinv
  unfold nqAssemble nqSolutionSteps
  constructor
  · intro s hs b hbm
    rcases List.mem_append.mp hs with hs | hs
    · have hs' : s ∈ st1.steps.reverse ∨ s = NQStep.noSolution n := by
        by_cases hz : (st1.solutions.length == 0) = true
        · rw [if_pos hz] at hs
          rcases List.mem_append.mp hs with hs | hs
          · exact Or.inl hs
          · exact Or.inr (List.mem_singleton.mp hs)
        · rw [if_neg hz] at hs
          exact Or.inl hs
      rcases hs' with hs' | rfl
      · exact h3 s (List.mem_reverse.mp hs') b hbm
      · simp [NQStep.boards] at hbm
    · rw [List.mem_singleton.mp hs] at hbm
      rcases List.mem_cons.mp hbm with rfl | hbm
      · by_cases hpos : st1.solutions.length > 0
        · rw [if_pos hpos]
          exact h2 _ (headD_mem st1.solutions board (by
            intro hnil
            rw [hnil] at hpos
            simp at hpos))
        · rw [if_neg hpos]
          exact h1
      · exact h2 b hbm
  · rw [List.countP_append]
    have hc : List.countP (fun s => s.kind == "solution-found")
        [NQStep.complete
          (if st1.solutions.length > 0 then st1.solutions.headD board else st1.board) n
          (st1.solutions.length > 0) st1.solutions.length st1.solutions] = 0 :=
      countP_singleton_not_sf _ rfl
    rw [hc]
    by_cases hz : (st1.solutions.length == 0) = true
    · rw [if_pos hz, List.countP_append, List.countP_reverse, h4]
      rw [countP_singleton_not_sf (NQStep.noSolution n) rfl]
      omega
    · rw [if_neg hz, List.countP_reverse, h4]
      omega

/-- The solver dispatch (`bitmask fast path` vs `traditional`) satisfies the contract. -/
theorem nqSolverChoice_contract (nn : Nat) (md : String) (interval : Nat)
    (msol maxSteps : Int) (usb : Bool) (st0 : NQState) (h0 : nqBasicInv nn st0) :
    nqContract nn msol st0
      (if usb && md != "full" then
        solveBit nn md interval msol maxSteps (nn + 1) 0 0 0 0 st0
      else solveTrad nn md interval msol maxSteps (nn + 1) 0 st0) := by
  split
  · exact solveBit_contract nn md interval msol maxSteps (nn + 1) 0 0 0 0 st0
      (Nat.zero_le _) h0
  · exact solveTrad_contract nn md interval msol maxSteps (nn + 1) 0 st0
      (Nat.zero_le _) h0

/-- The trace is the assembly of some solver state satisfying the invariant and the
solution bound. -/
theorem nqGenerateSteps_shape (input : NQInput) :
    ∃ st1 : NQState,
      nQueensRunner.generateSteps input =
        nqAssemble (min input.n MAX_N).toNat
          (List.replicate (min input.n MAX_N).toNat (-1)) st1 ∧
      nqBasicInv (min input.n MAX_N).toNat st1 ∧
      ((0 : Int) < effMaxSolutions input.maxSolutions →
        (st1.solutions.length : Int) ≤ effMaxSolutions input.maxSolutions) := by
  have hinv0 : ∀ (md : String) (usb : Bool), nqBasicInv (min input.n MAX_N).toNat
      ⟨List.replicate (min input.n MAX_N).toNat (-1),
       [.init (min input.n MAX_N).toNat (List.replicate (min input.n MAX_N).toNat (-1)) md
          (effMaxSolutions input.maxSolutions) usb], [], 0⟩ := by
    intro md usb
    refine ⟨List.length_replicate .., ?_, ?_, ?_⟩
    · intro b hb
      exact absurd hb (List.not_mem_nil b)
    · intro s hs b hb
      rw [List.mem_singleton.mp hs] at hb
      rw [List.mem_singleton.mp hb]
      exact List.length_replicate ..
    · exact countP_singleton_not_sf _ rfl
  simp only [nQueensRunner.generateSteps]
  rw [← apply_ite Prod.fst]
  refine ⟨_, rfl, ?_, ?_⟩
  · exact (nqSolverChoice_contract _ _ _ _ _ _ _ (hinv0 _ _)).1
  · intro hpos
    exact ((nqSolverChoice_contract _ _ _ _ _ _ _ (hinv0 _ _)).2 (by simpa using hpos)).1

/-- C9: even without validation, the runner operates on the effective board size
`min(input.n, 20)` — every board snapshot in every step has that length, hence no trace
ever shows a board larger than 20 — and an absent or zero maxSolutions defaults to 1, so
such a run records at most one `solution-found` step. -/
theorem nqueens_effective_bounds (input : NQInput) (h : 0 ≤ input.n) :
    (∀ s ∈ nQueensRunner.generateSteps input, ∀ b ∈ NQStep.boards s,
      b.length = (min input.n MAX_N).toNat ∧ b.length ≤ 20) ∧
    ((input.maxSolutions = none ∨ input.maxSolutions = some 0) →
      nqSolutionSteps (nQueensRunner.generateSteps input) ≤ 1) := by
  obtain ⟨st1, heq, hinv, hbound⟩ := nqGenerateSteps_shape input
  have hn20 : (min input.n MAX_N).toNat ≤ 20 := by
    simp only [MAX_N]
    omega
  obtain ⟨hA, hcount⟩ := nqAssemble_bounds (min input.n MAX_N).toNat st1
    (List.replicate (min input.n MAX_N).toNat (-1)) (List.length_replicate ..) hinv
  rw [heq]
  constructor
  · intro s hs b hb
    exact ⟨hA s hs b hb, le_trans (le_of_eq (hA s hs b hb)) hn20⟩
  · intro hm
    have hm1 : effMaxSolutions input.maxSolutions = 1 := by
      rcases hm with hm0 | hm0 <;> rw [hm0] <;> rfl
    rw [hcount]
    have hb1 := hbound (by rw [hm1]; norm_num)
    rw [hm1] at hb1
    exact_mod_cast hb1

/-- Witness for `nqueens_effective_bounds` at n = 2 with maxSolutions = 0. -/
theorem nqueens_effective_bounds_witness :
    (0 : Int) ≤ 2 ∧
    ((∀ s ∈ nQueensRunner.generateSteps ⟨2, some 0, none, none⟩, ∀ b ∈ NQStep.boards s,
        b.length = (min (2 : Int) MAX_N).toNat ∧ b.length ≤ 20) ∧
     (((some 0 : Option Int) = none ∨ (some 0 : Option Int) = some 0) →
       nqSolutionSteps (nQueensRunner.generateSteps ⟨2, some 0, none, none⟩) ≤ 1)) :=
  ⟨by decide, nqueens_effective_bounds ⟨2, some 0, none, none⟩ (by decide)⟩

end AlgoViz
